import Mathlib

/-!
Verification of `src/BakeryLock.py` (Lamport's Bakery Algorithm).

The development has two layers.

1. A sequential embedding of the methods of class `BakeryLock`
   (`__init__`, `lock`, `unlock`) with Python list semantics made
   explicit: indexing accepts negative indices (`l[-1]` is the last
   element), an out-of-range index raises `IndexError` (modelled as
   `none` / `LockResult.indexError`), `max` of an empty list raises
   (modelled as `none`), and the boolean connectives of the wait
   condition short-circuit.  A busy-wait loop `while c: pass` is run
   against a frozen registry (no interference): if the condition holds
   the loop never exits (`LockResult.blocked`), otherwise it exits at
   once.

2. A fine-grained interleaving model of N processes running
   `lock`/critical section/`unlock`, one shared-memory access per
   step, over which mutual exclusion is proved.
-/

/-! ## Python list primitives -/

/-- Effective index of a Python list subscript `l[i]` on a list of
length `len`: a non-negative `i < len` is used as is, a negative
`-len ≤ i < 0` addresses `len + i`, anything else raises `IndexError`,
modelled as `none`. -/
def pyIdx (len : Nat) (i : Int) : Option Nat :=
  if 0 ≤ i ∧ i < (len : Int) then some i.toNat
  else if -(len : Int) ≤ i ∧ i < 0 then some ((len : Int) + i).toNat
  else none

/-- Python read `l[i]`. -/
def pyGet (l : List α) (i : Int) : Option α :=
  (pyIdx l.length i).bind fun k => l[k]?

/-- Python write `l[i] = v`. -/
def pySet (l : List α) (i : Int) (v : α) : Option (List α) :=
  (pyIdx l.length i).map fun k => l.set k v

/-- Python `max(l)` for a list of naturals: `none` on the empty list
(Python raises `ValueError`), otherwise the running maximum over the
elements. -/
def pymax : List Nat → Option Nat
  | [] => none
  | x :: xs => some (xs.foldl max x)

/-! ## The `BakeryLock` class, sequential semantics -/

/-- The state of a `BakeryLock` object: field `n` (`self.n`), the
`choosing` flag list and the `number` ticket list. -/
structure BakeryLock where
  n : Nat
  choosing : List Bool
  number : List Nat
deriving DecidableEq

/-- Well-formedness maintained by the class: both lists have length
`n`. -/
def BakeryLock.WF (s : BakeryLock) : Prop :=
  s.choosing.length = s.n ∧ s.number.length = s.n

instance (s : BakeryLock) : Decidable s.WF := by
  unfold BakeryLock.WF; infer_instance

/-- `__init__(self, n_processes)`: `self.n = n_processes`,
`self.choosing = [False] * n_processes`, `self.number = [0] * n_processes`. -/
def BakeryLock.init (nProcesses : Nat) : BakeryLock :=
  { n := nProcesses
    choosing := List.replicate nProcesses false
    number := List.replicate nProcesses 0 }

/-- Steps 1–3 of `lock(self, pid)`:
`self.choosing[pid] = True`;
`self.number[pid] = max(self.number) + 1`;
`self.choosing[pid] = False`.
`none` when a list subscript raises `IndexError` (or `max` raises on an
empty registry). -/
def BakeryLock.drawTicket (s : BakeryLock) (pid : Int) : Option BakeryLock := do
  let c1 ← pySet s.choosing pid true
  let m ← pymax s.number
  let nums ← pySet s.number pid (m + 1)
  let c2 ← pySet c1 pid false
  some { n := s.n, choosing := c2, number := nums }

/-- The guard of the inner busy-wait
`while self.number[j] != 0 and (self.number[j] < self.number[pid] or
(self.number[j] == self.number[pid] and j < pid))`, as a pure function
of the two ticket values and the two identities. -/
def waitBlocked (numj numpid : Nat) (j pid : Int) : Bool :=
  numj != 0 && (decide (numj < numpid) || (numj == numpid && decide (j < pid)))

/-- One evaluation of the inner busy-wait guard against the registry,
with Python's short-circuiting: `self.number[pid]` is only read when
`self.number[j] != 0`.  `none` models `IndexError`. -/
def BakeryLock.numberGuard (s : BakeryLock) (pid : Int) (j : Nat) : Option Bool :=
  match s.number[j]? with
  | none => none
  | some numj =>
    if numj = 0 then some false
    else
      match pyGet s.number pid with
      | none => none
      | some numpid => some (waitBlocked numj numpid (j : Int) pid)

/-- Result of running `lock` with no interference from other threads:
the lock is acquired, a subscript raised `IndexError`, or a busy-wait
condition held — against a frozen registry the spin loop then never
exits. -/
inductive LockResult where
  | acquired (s : BakeryLock)
  | indexError
  | blocked
deriving DecidableEq

/-- Step 4 of `lock(self, pid)` against a frozen registry, starting at
loop index `j` with `rem` loop iterations left:
`for j in range(self.n): while self.choosing[j]: pass;
while <inner guard>: pass`.  The whole loop is `waitSteps pid 0 s.n`. -/
def BakeryLock.waitSteps (s : BakeryLock) (pid : Int) : Nat → Nat → LockResult
  | _, 0 => .acquired s
  | j, rem + 1 =>
    match s.choosing[j]? with
    | none => .indexError
    | some true => .blocked
    | some false =>
      match s.numberGuard pid j with
      | none => .indexError
      | some true => .blocked
      | some false => s.waitSteps pid (j + 1) rem

/-- `lock(self, pid)` run with no interference. -/
def BakeryLock.lock (s : BakeryLock) (pid : Int) : LockResult :=
  match s.drawTicket pid with
  | none => .indexError
  | some s' => s'.waitSteps pid 0 s'.n

/-- `unlock(self, pid)`: `self.number[pid] = 0`. -/
def BakeryLock.unlock (s : BakeryLock) (pid : Int) : Option BakeryLock :=
  (pySet s.number pid 0).map fun nums =>
    { n := s.n, choosing := s.choosing, number := nums }

/-! ## Fine-grained interleaving model of `lock`/`unlock`

`n` client processes share one registry and interleave the
shared-memory accesses of `lock(i)` / critical section / `unlock(i)`
(the client protocol of the worker loop: each process acquires,
enters its critical section, releases, repeats).  Each step performs
one read or one write of one shared variable — the per-variable
atomicity the algorithm is designed for.  The non-atomic `max` scan of
`self.number` and the re-reads of `self.number[j]` in the short-circuit
evaluation of the inner wait condition are each split into separate
steps.  Reads of the caller's own `self.number[pid]` are folded into
the comparison steps: only the owner writes that slot and the owner is
past its write, so the value cannot change within one evaluation. -/

/-- Program counter of one process:

* `idle` — non-critical section, before `lock` / after `unlock`;
* `scan k m` — inside `max(self.number)`: entries `0..k-1` read,
  running maximum `m` (starting the running maximum at `0` equals
  Python's `max` over the non-negative entries);
* `clear` — about to run `self.choosing[pid] = False`;
* `wait1 j` — loop iteration `j`, at `while self.choosing[j]`;
* `w2a j` — about to read `self.number[j]` for `self.number[j] != 0`;
* `w2b j` — read non-zero; about to re-read `self.number[j]` for
  `self.number[j] < self.number[pid]`;
* `w2c j` — about to re-read `self.number[j]` for
  `self.number[j] == self.number[pid] and j < pid`;
* `crit` — the loop cleared all `n` iterations: `lock` returned and
  the process is in its critical section. -/
inductive PC where
  | idle
  | scan (k m : Nat)
  | clear
  | wait1 (j : Nat)
  | w2a (j : Nat)
  | w2b (j : Nat)
  | w2c (j : Nat)
  | crit
deriving DecidableEq

/-- Global state: the shared `choosing`/`number` arrays (functions from
process identity, single writer per slot) and each process's control
state. -/
structure BState (n : Nat) where
  choosing : Fin n → Bool
  number : Fin n → Nat
  pc : Fin n → PC

/-- Initial state: every process idle, `choosing = [False] * n`,
`number = [0] * n`. -/
def initB (n : Nat) : BState n :=
  { choosing := fun _ => false, number := fun _ => 0, pc := fun _ => PC.idle }

/-- After loop iteration `j`: next iteration, or — after the last
iteration — the `for` loop ends and `lock` returns. -/
def nextPeer (n j : Nat) : PC :=
  if j + 1 < n then PC.wait1 (j + 1) else PC.crit

/-- One atomic step: some process performs one shared-memory access of
`lock`/`unlock` (or the local loop exit).  Spinning re-evaluations that
change nothing are omitted — they do not change the reachable states. -/
inductive Step (n : Nat) : BState n → BState n → Prop where
  | startLock (s : BState n) (i : Fin n) (h : s.pc i = PC.idle) :
      Step n s { choosing := Function.update s.choosing i true,
                 number := s.number,
                 pc := Function.update s.pc i (PC.scan 0 0) }
  | scanRead (s : BState n) (i : Fin n) (k m : Nat) (hk : k < n)
      (h : s.pc i = PC.scan k m) :
      Step n s { choosing := s.choosing, number := s.number,
                 pc := Function.update s.pc i
                   (PC.scan (k + 1) (max m (s.number ⟨k, hk⟩))) }
  | writeTicket (s : BState n) (i : Fin n) (m : Nat)
      (h : s.pc i = PC.scan n m) :
      Step n s { choosing := s.choosing,
                 number := Function.update s.number i (m + 1),
                 pc := Function.update s.pc i PC.clear }
  | clearFlag (s : BState n) (i : Fin n) (h : s.pc i = PC.clear) :
      Step n s { choosing := Function.update s.choosing i false,
                 number := s.number,
                 pc := Function.update s.pc i (PC.wait1 0) }
  | passChoosing (s : BState n) (i : Fin n) (j : Nat) (hj : j < n)
      (h : s.pc i = PC.wait1 j) (hc : s.choosing ⟨j, hj⟩ = false) :
      Step n s { choosing := s.choosing, number := s.number,
                 pc := Function.update s.pc i (PC.w2a j) }
  | readZero (s : BState n) (i : Fin n) (j : Nat) (hj : j < n)
      (h : s.pc i = PC.w2a j) (hz : s.number ⟨j, hj⟩ = 0) :
      Step n s { choosing := s.choosing, number := s.number,
                 pc := Function.update s.pc i (nextPeer n j) }
  | readNonzero (s : BState n) (i : Fin n) (j : Nat) (hj : j < n)
      (h : s.pc i = PC.w2a j) (hz : s.number ⟨j, hj⟩ ≠ 0) :
      Step n s { choosing := s.choosing, number := s.number,
                 pc := Function.update s.pc i (PC.w2b j) }
  | readLess (s : BState n) (i : Fin n) (j : Nat) (hj : j < n)
      (h : s.pc i = PC.w2b j) (hlt : s.number ⟨j, hj⟩ < s.number i) :
      Step n s { choosing := s.choosing, number := s.number,
                 pc := Function.update s.pc i (PC.w2a j) }
  | readGeq (s : BState n) (i : Fin n) (j : Nat) (hj : j < n)
      (h : s.pc i = PC.w2b j) (hge : ¬ s.number ⟨j, hj⟩ < s.number i) :
      Step n s { choosing := s.choosing, number := s.number,
                 pc := Function.update s.pc i (PC.w2c j) }
  | readTie (s : BState n) (i : Fin n) (j : Nat) (hj : j < n)
      (h : s.pc i = PC.w2c j) (heq : s.number ⟨j, hj⟩ = s.number i)
      (hji : j < i.val) :
      Step n s { choosing := s.choosing, number := s.number,
                 pc := Function.update s.pc i (PC.w2a j) }
  | readPass (s : BState n) (i : Fin n) (j : Nat) (hj : j < n)
      (h : s.pc i = PC.w2c j)
      (hp : ¬ (s.number ⟨j, hj⟩ = s.number i ∧ j < i.val)) :
      Step n s { choosing := s.choosing, number := s.number,
                 pc := Function.update s.pc i (nextPeer n j) }
  | unlockStep (s : BState n) (i : Fin n) (h : s.pc i = PC.crit) :
      Step n s { choosing := s.choosing,
                 number := Function.update s.number i 0,
                 pc := Function.update s.pc i PC.idle }

/-- States reachable from the initial state by interleaved steps. -/
inductive Reach (n : Nat) : BState n → Prop where
  | init : Reach n (initB n)
  | next {s t : BState n} : Reach n s → Step n s t → Reach n t

/-- The process holds a committed ticket: from the ticket write up to
and including its critical section. -/
def PC.ticketed : PC → Prop
  | PC.clear => True
  | PC.wait1 _ => True
  | PC.w2a _ => True
  | PC.w2b _ => True
  | PC.w2c _ => True
  | PC.crit => True
  | _ => False

/-- The process is inside the `max` scan. -/
def PC.isScan : PC → Prop
  | PC.scan _ _ => True
  | _ => False

/-- The process is in the inner number-guard of loop iteration `j`. -/
def PC.inWait2 (p : PC) (j : Nat) : Prop :=
  p = PC.w2a j ∨ p = PC.w2b j ∨ p = PC.w2c j

/-- The process's wait loop is strictly past iteration `j`. -/
def PC.donePast : PC → Nat → Prop
  | PC.wait1 j', j => j < j'
  | PC.w2a j', j => j < j'
  | PC.w2b j', j => j < j'
  | PC.w2c j', j => j < j'
  | PC.crit, _ => True
  | _, _ => False

/-- Any scan `j` is in either has not yet read slot `i`, or its running
maximum already dominates `i`'s ticket. -/
def scanOk {n : Nat} (s : BState n) (i j : Fin n) : Prop :=
  ∀ k m, s.pc j = PC.scan k m → k ≤ i.val ∨ s.number i ≤ m

/-- `i` has priority over `j` and keeps it while `i` stays ticketed:
any scan of `j` will draw a bigger ticket than `i`'s, and as long as
`j` is ticketed, `i`'s (ticket, identity) pair is lexicographically
smaller. -/
def beats {n : Nat} (s : BState n) (i j : Fin n) : Prop :=
  scanOk s i j ∧
  ((s.pc j).ticketed →
    s.number i < s.number j ∨ (s.number i = s.number j ∧ i.val < j.val))

/-- Inductive invariant of the interleaving model. -/
structure BInv (n : Nat) (s : BState n) : Prop where
  flag : ∀ i, s.choosing i = true ↔ ((s.pc i).isScan ∨ s.pc i = PC.clear)
  num0 : ∀ i, s.number i = 0 ↔ (s.pc i = PC.idle ∨ (s.pc i).isScan)
  scanBound : ∀ i j : Fin n, i ≠ j → (s.pc i).inWait2 j.val → scanOk s i j
  w2cGeq : ∀ i j : Fin n, i ≠ j → s.pc i = PC.w2c j.val →
    (s.pc j).ticketed → s.number i ≤ s.number j
  passed : ∀ i j : Fin n, i ≠ j → (s.pc i).donePast j.val → beats s i j

/-! ## Basic lemmas on the Python primitives -/

theorem pyIdx_pos {len : Nat} {i : Int} (h0 : 0 ≤ i) (h1 : i < (len : Int)) :
    pyIdx len i = some i.toNat := by
  simp [pyIdx, h0, h1]

theorem pyIdx_negIdx {len : Nat} {i : Int} (h0 : -(len : Int) ≤ i) (h1 : i < 0) :
    pyIdx len i = some ((len : Int) + i).toNat := by
  unfold pyIdx
  rw [if_neg (by omega), if_pos ⟨h0, h1⟩]

theorem pyIdx_oob {len : Nat} {i : Int} (h : i < -(len : Int) ∨ (len : Int) ≤ i) :
    pyIdx len i = none := by
  unfold pyIdx
  rw [if_neg (by omega), if_neg (by omega)]

theorem pyIdx_lt {len : Nat} {i : Int} {k : Nat} (h : pyIdx len i = some k) :
    k < len := by
  unfold pyIdx at h
  split_ifs at h with h1 h2
  · injection h with h; omega
  · injection h with h; omega

theorem pyIdx_isSome {len : Nat} {i : Int} (h0 : -(len : Int) ≤ i) (h1 : i < (len : Int)) :
    ∃ k, pyIdx len i = some k ∧ k < len := by
  rcases Int.lt_or_le i 0 with hneg | hpos
  · exact ⟨_, pyIdx_negIdx h0 hneg, pyIdx_lt (pyIdx_negIdx h0 hneg)⟩
  · exact ⟨_, pyIdx_pos hpos h1, pyIdx_lt (pyIdx_pos hpos h1)⟩

theorem le_foldl_max (xs : List Nat) (a : Nat) : a ≤ xs.foldl max a := by
  induction xs generalizing a with
  | nil => exact Nat.le_refl a
  | cons x xs ih => exact Nat.le_trans (le_max_left a x) (ih (max a x))

theorem mem_le_foldl_max (xs : List Nat) (a x : Nat) (hx : x ∈ xs) :
    x ≤ xs.foldl max a := by
  induction xs generalizing a with
  | nil => cases hx
  | cons y ys ih =>
    rcases List.mem_cons.mp hx with rfl | hmem
    · exact Nat.le_trans (le_max_right a x) (le_foldl_max ys (max a x))
    · exact ih (max a y) hmem

theorem foldl_max_mem (xs : List Nat) (a : Nat) :
    xs.foldl max a = a ∨ xs.foldl max a ∈ xs := by
  induction xs generalizing a with
  | nil => exact Or.inl rfl
  | cons y ys ih =>
    rcases ih (max a y) with h | h
    · rcases Nat.le_total a y with hay | hya
      · right
        rw [List.foldl_cons, h, max_eq_right hay]
        exact List.mem_cons_self y ys
      · left
        rw [List.foldl_cons, h, max_eq_left hya]
    · exact Or.inr (List.mem_cons_of_mem y h)

/-- `pymax l = some m` makes `m` the maximum over all entries of `l`. -/
theorem pymax_spec {l : List Nat} {m : Nat} (h : pymax l = some m) :
    (∀ x ∈ l, x ≤ m) ∧ m ∈ l := by
  cases l with
  | nil => cases h
  | cons x xs =>
    injection h with h
    subst h
    constructor
    · intro y hy
      rcases List.mem_cons.mp hy with rfl | hmem
      · exact le_foldl_max xs y
      · exact mem_le_foldl_max xs x y hmem
    · rcases foldl_max_mem xs x with h | h
      · rw [h]; exact List.mem_cons_self x xs
      · exact List.mem_cons_of_mem x h

theorem pymax_isSome {l : List Nat} (h : l ≠ []) : ∃ m, pymax l = some m := by
  cases l with
  | nil => exact absurd rfl h
  | cons x xs => exact ⟨xs.foldl max x, rfl⟩

/-! ## Lemmas on the sequential operations -/

theorem pyGet_eq {α : Type} {l : List α} {i : Int} {k : Nat}
    (hk : pyIdx l.length i = some k) : pyGet l i = l[k]? := by
  unfold pyGet
  rw [hk]
  rfl

theorem pySet_eq {α : Type} {l : List α} {i : Int} {k : Nat}
    (hk : pyIdx l.length i = some k) (v : α) : pySet l i v = some (l.set k v) := by
  unfold pySet
  rw [hk]
  rfl

theorem pySet_oob {α : Type} {l : List α} {i : Int}
    (h : pyIdx l.length i = none) (v : α) : pySet l i v = none := by
  unfold pySet
  rw [h]
  rfl

/-- Closed form of the ticket-draw phase at a valid effective index. -/
theorem drawTicket_eq {s : BakeryLock} {pid : Int} {k : Nat} (hWF : s.WF)
    (hk : pyIdx s.n pid = some k) {m : Nat} (hm : pymax s.number = some m) :
    s.drawTicket pid = some
      { n := s.n
        choosing := (s.choosing.set k true).set k false
        number := s.number.set k (m + 1) } := by
  have h1 : pySet s.choosing pid true = some (s.choosing.set k true) :=
    pySet_eq (by rw [hWF.1]; exact hk) true
  have h2 : pySet s.number pid (m + 1) = some (s.number.set k (m + 1)) :=
    pySet_eq (by rw [hWF.2]; exact hk) (m + 1)
  have h3 : pySet (s.choosing.set k true) pid false =
      some ((s.choosing.set k true).set k false) :=
    pySet_eq (by rw [List.length_set, hWF.1]; exact hk) false
  simp [BakeryLock.drawTicket, h1, h2, h3, hm]

theorem drawTicket_oob {s : BakeryLock} {pid : Int}
    (h : pyIdx s.choosing.length pid = none) : s.drawTicket pid = none := by
  simp [BakeryLock.drawTicket, pySet_oob h]

/-- Closed form of `unlock` at a valid effective index. -/
theorem unlock_eq {s : BakeryLock} {pid : Int} {k : Nat}
    (hk : pyIdx s.number.length pid = some k) :
    s.unlock pid = some { n := s.n, choosing := s.choosing, number := s.number.set k 0 } := by
  unfold BakeryLock.unlock
  rw [pySet_eq hk]
  rfl

theorem unlock_oob {s : BakeryLock} {pid : Int}
    (h : pyIdx s.number.length pid = none) : s.unlock pid = none := by
  unfold BakeryLock.unlock
  rw [pySet_oob h]
  rfl

theorem numberGuard_eq {s : BakeryLock} {pid : Int} {j : Nat} {numj numpid : Nat}
    (hj : s.number[j]? = some numj) (hp : pyGet s.number pid = some numpid) :
    s.numberGuard pid j = some (waitBlocked numj numpid (j : Int) pid) := by
  by_cases h0 : numj = 0
  · subst h0
    simp [BakeryLock.numberGuard, hj, waitBlocked]
  · simp [BakeryLock.numberGuard, hj, h0, hp]

theorem numberGuard_zero {s : BakeryLock} {pid : Int} {j : Nat}
    (hj : s.number[j]? = some 0) : s.numberGuard pid j = some false := by
  simp [BakeryLock.numberGuard, hj]

theorem numberGuard_isSome {s : BakeryLock} {pid : Int} {j : Nat}
    (hj : j < s.number.length) (hpid : ∃ k, pyIdx s.number.length pid = some k) :
    ∃ b, s.numberGuard pid j = some b := by
  obtain ⟨k, hk⟩ := hpid
  obtain ⟨v, hv⟩ : ∃ v, s.number[j]? = some v := ⟨_, List.getElem?_eq_getElem hj⟩
  obtain ⟨w, hw⟩ : ∃ w, pyGet s.number pid = some w := by
    rw [pyGet_eq hk]
    exact ⟨_, List.getElem?_eq_getElem (pyIdx_lt hk)⟩
  by_cases h0 : v = 0
  · subst h0
    exact ⟨false, numberGuard_zero hv⟩
  · exact ⟨_, numberGuard_eq hv hw⟩

theorem waitSteps_pass {s : BakeryLock} {pid : Int} {j rem : Nat}
    (hc : s.choosing[j]? = some false) (hg : s.numberGuard pid j = some false) :
    s.waitSteps pid j (rem + 1) = s.waitSteps pid (j + 1) rem := by
  conv_lhs => unfold BakeryLock.waitSteps
  rw [hc, hg]

/-- `waitSteps` only returns `acquired` with the unchanged registry. -/
theorem waitSteps_acquired_inv {s : BakeryLock} {pid : Int} :
    ∀ rem j t, s.waitSteps pid j rem = .acquired t → t = s := by
  intro rem
  induction rem with
  | zero =>
    intro j t h
    injection h with h
    exact h.symm
  | succ rem ih =>
    intro j t h
    unfold BakeryLock.waitSteps at h
    split at h
    · exact LockResult.noConfusion h
    · exact LockResult.noConfusion h
    · split at h
      · exact LockResult.noConfusion h
      · exact LockResult.noConfusion h
      · exact ih _ _ h

/-- The wait loop exits when every remaining peer check is clear. -/
theorem waitSteps_acquired_of {s : BakeryLock} {pid : Int} :
    ∀ rem j, (∀ i, j ≤ i → i < j + rem →
        s.choosing[i]? = some false ∧ s.numberGuard pid i = some false) →
      s.waitSteps pid j rem = .acquired s := by
  intro rem
  induction rem with
  | zero => intro j _; rfl
  | succ rem ih =>
    intro j h
    have hj := h j (Nat.le_refl j) (by omega)
    rw [waitSteps_pass hj.1 hj.2]
    exact ih (j + 1) fun i h1 h2 => h i (by omega) (by omega)

/-- The wait loop never raises `IndexError` when the registry is
well-formed and `pid` has a valid effective index. -/
theorem waitSteps_no_indexError {s : BakeryLock} {pid : Int} (hWF : s.WF)
    (hpid : ∃ k, pyIdx s.n pid = some k) :
    ∀ rem j, j + rem ≤ s.n → s.waitSteps pid j rem ≠ .indexError := by
  intro rem
  induction rem with
  | zero => intro j _ h; exact LockResult.noConfusion h
  | succ rem ih =>
    intro j hle
    have hj : j < s.choosing.length := by rw [hWF.1]; omega
    obtain ⟨b, hb⟩ : ∃ b, s.choosing[j]? = some b := ⟨_, List.getElem?_eq_getElem hj⟩
    obtain ⟨g, hg⟩ : ∃ g, s.numberGuard pid j = some g :=
      numberGuard_isSome (by rw [hWF.2]; omega) (by rw [hWF.2]; exact hpid)
    intro h
    unfold BakeryLock.waitSteps at h
    rw [hb] at h
    cases b with
    | true => exact LockResult.noConfusion h
    | false =>
      rw [hg] at h
      cases g with
      | true => exact LockResult.noConfusion h
      | false => exact ih (j + 1) (by omega) h

/-- A process is never blocked by its own registry entry. -/
theorem waitBlocked_self (t : Nat) (p : Int) : waitBlocked t t p p = false := by
  simp [waitBlocked]

/-- Writing back the value already stored leaves the list unchanged. -/
theorem set_of_getElem?_eq {α : Type} :
    ∀ (l : List α) (k : Nat) (v : α), l[k]? = some v → l.set k v = l := by
  intro l
  induction l with
  | nil => intro k v h; cases h
  | cons x xs ih =>
    intro k v h
    cases k with
    | zero =>
      rw [List.getElem?_cons_zero] at h
      injection h with h
      rw [List.set_cons_zero, h]
    | succ k =>
      rw [List.set_cons_succ]
      rw [List.getElem?_cons_succ] at h
      rw [ih k v h]

/-- **C6.** `__init__` with `n` processes allocates a registry of exactly
`n` slots, every slot initialized to `choosing = false`, `number = 0`. -/
theorem c6_init_registry (nProcesses : Nat) :
    (BakeryLock.init nProcesses).n = nProcesses ∧
    (BakeryLock.init nProcesses).choosing.length = nProcesses ∧
    (BakeryLock.init nProcesses).number.length = nProcesses ∧
    ∀ k, k < nProcesses →
      (BakeryLock.init nProcesses).choosing[k]? = some false ∧
      (BakeryLock.init nProcesses).number[k]? = some 0 := by
  refine ⟨rfl, List.length_replicate .., List.length_replicate .., ?_⟩
  intro k hk
  constructor <;> simp [BakeryLock.init, List.getElem?_replicate, hk]

theorem c6_init_registry_witness :
    (BakeryLock.init 3).choosing[1]? = some false ∧
    (BakeryLock.init 3).number[1]? = some 0 :=
  (c6_init_registry 3).2.2.2 1 (by decide)

/-- **C2.** For every well-formed registry state and valid `pid`, the
draw phase of `lock(pid)` succeeds and writes `number[pid] = 1 + m`
where `m` is the maximum over all entries of `number[]` as read
(`m` bounds every entry and is itself an entry), so the ticket is
positive; and `choosing[pid]` is `false` when the wait loop starts —
and still `false` in the state `lock` returns, which is that same
state. -/
theorem c2_draw_ticket_postcondition (s : BakeryLock) (pid : Int)
    (hWF : s.WF) (h0 : 0 ≤ pid) (h1 : pid < (s.n : Int)) :
    ∃ s' m, s.drawTicket pid = some s' ∧
      pymax s.number = some m ∧
      (∀ x ∈ s.number, x ≤ m) ∧ m ∈ s.number ∧
      s'.number[pid.toNat]? = some (m + 1) ∧
      0 < m + 1 ∧
      s'.choosing[pid.toNat]? = some false ∧
      ∀ t, s.lock pid = .acquired t → t = s' := by
  have hk : pyIdx s.n pid = some pid.toNat := pyIdx_pos h0 h1
  have hklt : pid.toNat < s.n := pyIdx_lt hk
  have hne : s.number ≠ [] := by
    intro h
    have := hWF.2
    rw [h] at this
    simp at this
    omega
  obtain ⟨m, hm⟩ := pymax_isSome hne
  have hdraw := drawTicket_eq hWF hk hm
  refine ⟨_, m, hdraw, hm, (pymax_spec hm).1, (pymax_spec hm).2, ?_, Nat.succ_pos m, ?_, ?_⟩
  · exact List.getElem?_set_eq_of_lt (m + 1) (by rw [hWF.2]; exact hklt)
  · exact List.getElem?_set_eq_of_lt false (by rw [List.length_set, hWF.1]; exact hklt)
  · intro t ht
    unfold BakeryLock.lock at ht
    rw [hdraw] at ht
    exact waitSteps_acquired_inv _ _ _ ht

theorem c2_draw_ticket_postcondition_witness :
    ∃ s' m, (BakeryLock.init 3).drawTicket 0 = some s' ∧
      pymax (BakeryLock.init 3).number = some m ∧
      (∀ x ∈ (BakeryLock.init 3).number, x ≤ m) ∧ m ∈ (BakeryLock.init 3).number ∧
      s'.number[(0 : Int).toNat]? = some (m + 1) ∧
      0 < m + 1 ∧
      s'.choosing[(0 : Int).toNat]? = some false ∧
      ∀ t, (BakeryLock.init 3).lock 0 = .acquired t → t = s' :=
  c2_draw_ticket_postcondition (BakeryLock.init 3) 0 (by decide) (by decide) (by decide)

/-- **C3.** One evaluation of the inner busy-wait guard equals exactly
`number[j] != 0 and (number[j] < number[pid] or (number[j] ==
number[pid] and j < pid))`; and on an identical non-zero ticket the
guard blocks the higher identity against the lower one and does not
block the lower identity against the higher one. -/
theorem c3_wait_guard_and_tiebreak :
    (∀ (s : BakeryLock) (pid : Int) (j : Nat) (numj numpid : Nat),
        s.number[j]? = some numj → pyGet s.number pid = some numpid →
        s.numberGuard pid j = some (waitBlocked numj numpid (j : Int) pid)) ∧
    ∀ (t : Nat) (lo hi : Int), t ≠ 0 → lo < hi →
        waitBlocked t t lo hi = true ∧ waitBlocked t t hi lo = false := by
  refine ⟨fun s pid j numj numpid hj hp => numberGuard_eq hj hp, fun t lo hi ht hlt => ?_⟩
  constructor <;> simp [waitBlocked] <;> omega

theorem c3_wait_guard_and_tiebreak_witness :
    BakeryLock.numberGuard ⟨3, [false, false, false], [2, 2, 0]⟩ 1 0 =
      some (waitBlocked 2 2 ((0 : Nat) : Int) 1) ∧
    waitBlocked 2 2 0 1 = true ∧ waitBlocked 2 2 1 0 = false :=
  ⟨c3_wait_guard_and_tiebreak.1 ⟨3, [false, false, false], [2, 2, 0]⟩ 1 0 2 2
      (by decide) (by decide),
    c3_wait_guard_and_tiebreak.2 2 0 1 (by decide) (by decide)⟩

/-- **C4.** For every well-formed registry state and every valid `pid`,
`unlock(pid)` succeeds unconditionally, sets `number[pid]` to `0`, and
leaves `n`, every `choosing` flag and every other `number[j]`
unchanged. -/
theorem c4_unlock_effect_and_frame (s : BakeryLock) (pid : Int)
    (hWF : s.WF) (h0 : 0 ≤ pid) (h1 : pid < (s.n : Int)) :
    ∃ s', s.unlock pid = some s' ∧
      s'.n = s.n ∧ s'.choosing = s.choosing ∧
      s'.number[pid.toNat]? = some 0 ∧
      ∀ j : Nat, j ≠ pid.toNat → s'.number[j]? = s.number[j]? := by
  have hk : pyIdx s.number.length pid = some pid.toNat := by
    rw [hWF.2]
    exact pyIdx_pos h0 h1
  refine ⟨_, unlock_eq hk, rfl, rfl, ?_, ?_⟩
  · exact List.getElem?_set_eq_of_lt 0 (pyIdx_lt hk)
  · intro j hj
    exact List.getElem?_set_ne (Ne.symm hj)

theorem c4_unlock_effect_and_frame_witness :
    ∃ s', BakeryLock.unlock ⟨2, [true, false], [5, 7]⟩ 0 = some s' ∧
      s'.n = 2 ∧ s'.choosing = [true, false] ∧
      s'.number[(0 : Int).toNat]? = some 0 ∧
      ∀ j : Nat, j ≠ (0 : Int).toNat →
        s'.number[j]? = ([5, 7] : List Nat)[j]? :=
  c4_unlock_effect_and_frame ⟨2, [true, false], [5, 7]⟩ 0 (by decide) (by decide) (by decide)

/-- **C9.** For every well-formed registry state and valid `pid`,
`unlock(pid)` with `number[pid]` already `0` is a no-op on the whole
state, and `unlock(pid)` twice equals `unlock(pid)` once. -/
theorem c9_unlock_idempotent (s : BakeryLock) (pid : Int)
    (hWF : s.WF) (h0 : 0 ≤ pid) (h1 : pid < (s.n : Int)) :
    (s.number[pid.toNat]? = some 0 → s.unlock pid = some s) ∧
    (s.unlock pid).bind (fun t => t.unlock pid) = s.unlock pid := by
  have hk : pyIdx s.number.length pid = some pid.toNat := by
    rw [hWF.2]
    exact pyIdx_pos h0 h1
  constructor
  · intro hzero
    rw [unlock_eq hk, set_of_getElem?_eq s.number pid.toNat 0 hzero]
  · have hk2 : pyIdx (s.number.set pid.toNat 0).length pid = some pid.toNat := by
      rw [List.length_set]
      exact hk
    rw [unlock_eq hk]
    show BakeryLock.unlock _ pid = _
    rw [unlock_eq hk2]
    rw [List.set_set]

theorem c9_unlock_idempotent_witness :
    (⟨2, [false, false], [0, 4]⟩ : BakeryLock).number[(0 : Int).toNat]? = some 0 ∧
    BakeryLock.unlock ⟨2, [false, false], [0, 4]⟩ 0 = some ⟨2, [false, false], [0, 4]⟩ ∧
    (BakeryLock.unlock ⟨2, [false, false], [0, 4]⟩ 0).bind (fun t => t.unlock 0) =
      BakeryLock.unlock ⟨2, [false, false], [0, 4]⟩ 0 := by
  have h := c9_unlock_idempotent ⟨2, [false, false], [0, 4]⟩ 0 (by decide) (by decide) (by decide)
  exact ⟨by decide, h.1 (by decide), h.2⟩

/-- **C7, counterexample.** The claim says every `pid` outside `[0, n)`
fails fast with a reported error; but on a 3-slot lock, `pid = -1` is
outside `[0, 3)` and neither `unlock` nor `lock` reports an error. -/
theorem c7_invalid_pid_counterexample :
    BakeryLock.unlock (BakeryLock.init 3) (-1) ≠ none ∧
    BakeryLock.lock (BakeryLock.init 3) (-1) ≠ .indexError := by
  decide

/-- **C7, amended.** Only a `pid` outside `[-n, n)` fails fast, with an
`IndexError` raised on the first subscript and no change to the
registry; a `pid` in `[-n, 0)` is accepted silently (see C10). -/
theorem c7_invalid_pid_amended (s : BakeryLock) (pid : Int) (hWF : s.WF)
    (h : pid < -(s.n : Int) ∨ (s.n : Int) ≤ pid) :
    s.lock pid = .indexError ∧ s.unlock pid = none := by
  have hc : pyIdx s.choosing.length pid = none := by
    rw [hWF.1]
    exact pyIdx_oob h
  have hn : pyIdx s.number.length pid = none := by
    rw [hWF.2]
    exact pyIdx_oob h
  constructor
  · unfold BakeryLock.lock
    rw [drawTicket_oob hc]
  · exact unlock_oob hn

theorem c7_invalid_pid_amended_witness :
    BakeryLock.lock (BakeryLock.init 3) 5 = .indexError ∧
    BakeryLock.unlock (BakeryLock.init 3) 5 = none :=
  c7_invalid_pid_amended (BakeryLock.init 3) 5 (by decide) (by decide)

/-- **C8.** The wait loop of `lock(pid)` includes `j = pid`, and at that
point neither wait condition holds: after the draw phase `choosing[pid]`
is `false`, and the inner guard at the own slot is `false` (a ticket is
never smaller than itself and `pid < pid` fails), so checking one's own
slot never blocks.  In general `waitBlocked t t p p = false`. -/
theorem c8_self_check_harmless (s : BakeryLock) (pid : Int)
    (hWF : s.WF) (h0 : 0 ≤ pid) (h1 : pid < (s.n : Int)) :
    (∀ s', s.drawTicket pid = some s' →
      s'.choosing[pid.toNat]? = some false ∧
      s'.numberGuard pid pid.toNat = some false) ∧
    ∀ (t : Nat) (p : Int), waitBlocked t t p p = false := by
  have hk : pyIdx s.n pid = some pid.toNat := pyIdx_pos h0 h1
  have hklt : pid.toNat < s.n := pyIdx_lt hk
  have hne : s.number ≠ [] := by
    intro h
    have := hWF.2
    rw [h] at this
    simp at this
    omega
  obtain ⟨m, hm⟩ := pymax_isSome hne
  have hdraw := drawTicket_eq hWF hk hm
  refine ⟨?_, fun t p => waitBlocked_self t p⟩
  intro s' hs'
  rw [hdraw] at hs'
  injection hs' with hs'
  subst hs'
  have hnum : (s.number.set pid.toNat (m + 1))[pid.toNat]? = some (m + 1) :=
    List.getElem?_set_eq_of_lt (m + 1) (by rw [hWF.2]; exact hklt)
  constructor
  · exact List.getElem?_set_eq_of_lt false (by rw [List.length_set, hWF.1]; exact hklt)
  · have hg : pyIdx (s.number.set pid.toNat (m + 1)).length pid = some pid.toNat := by
      rw [List.length_set, hWF.2]
      exact hk
    have hg2 : pyGet (s.number.set pid.toNat (m + 1)) pid = some (m + 1) := by
      rw [pyGet_eq hg]
      exact hnum
    have hguard := @numberGuard_eq
      ⟨s.n, (s.choosing.set pid.toNat true).set pid.toNat false,
        s.number.set pid.toNat (m + 1)⟩ pid pid.toNat (m + 1) (m + 1) hnum hg2
    rw [hguard, show ((pid.toNat : Nat) : Int) = pid from Int.toNat_of_nonneg h0,
      waitBlocked_self]

theorem c8_self_check_harmless_witness :
    ((⟨3, [false, false, false], [0, 1, 0]⟩ : BakeryLock).choosing[(1 : Int).toNat]? =
      some false ∧
      (⟨3, [false, false, false], [0, 1, 0]⟩ : BakeryLock).numberGuard 1 (1 : Int).toNat =
        some false) ∧
    waitBlocked 5 5 2 2 = false := by
  have h := c8_self_check_harmless (BakeryLock.init 3) 1 (by decide) (by decide) (by decide)
  exact ⟨h.1 ⟨3, [false, false, false], [0, 1, 0]⟩ (by decide), h.2 5 2⟩

/-- **C10.** On a lock of size `n ≥ 1`, a negative `pid` with
`-n ≤ pid < 0` raises no error: `unlock(pid)` resets the slot at index
`n + pid` and touches nothing else, `unlock`/`drawTicket` behave
exactly as for the identity `n + pid`, and `lock(pid)` does not raise. -/
theorem c10_negative_pid_aliases (s : BakeryLock) (pid : Int) (hWF : s.WF)
    (hlo : -(s.n : Int) ≤ pid) (hhi : pid < 0) :
    (∃ s', s.unlock pid = some s' ∧
      s'.number[((s.n : Int) + pid).toNat]? = some 0 ∧
      s'.choosing = s.choosing ∧
      ∀ j : Nat, j ≠ ((s.n : Int) + pid).toNat → s'.number[j]? = s.number[j]?) ∧
    s.unlock pid = s.unlock ((s.n : Int) + pid) ∧
    s.drawTicket pid = s.drawTicket ((s.n : Int) + pid) ∧
    s.lock pid ≠ .indexError := by
  have hn0 : 0 < s.n := by omega
  have hkneg : pyIdx s.n pid = some ((s.n : Int) + pid).toNat := pyIdx_negIdx hlo hhi
  have hkpos : pyIdx s.n ((s.n : Int) + pid) = some ((s.n : Int) + pid).toNat := by
    have h := @pyIdx_pos s.n ((s.n : Int) + pid) (by omega) (by omega)
    rw [h]
  have hknum : pyIdx s.number.length pid = some ((s.n : Int) + pid).toNat := by
    rw [hWF.2]
    exact hkneg
  have hknum2 : pyIdx s.number.length ((s.n : Int) + pid) = some ((s.n : Int) + pid).toNat := by
    rw [hWF.2]
    exact hkpos
  have hklt : ((s.n : Int) + pid).toNat < s.n := pyIdx_lt hkneg
  have hne : s.number ≠ [] := by
    intro h
    have := hWF.2
    rw [h] at this
    simp at this
    omega
  obtain ⟨m, hm⟩ := pymax_isSome hne
  refine ⟨⟨_, unlock_eq hknum, ?_, rfl, ?_⟩, ?_, ?_, ?_⟩
  · exact List.getElem?_set_eq_of_lt 0 (pyIdx_lt hknum)
  · intro j hj
    exact List.getElem?_set_ne (Ne.symm hj)
  · rw [unlock_eq hknum, unlock_eq hknum2]
  · rw [drawTicket_eq hWF hkneg hm, drawTicket_eq hWF hkpos hm]
  · have hdraw := drawTicket_eq hWF hkneg hm
    unfold BakeryLock.lock
    rw [hdraw]
    have hWF1 : BakeryLock.WF ⟨s.n,
        (s.choosing.set ((s.n : Int) + pid).toNat true).set ((s.n : Int) + pid).toNat false,
        s.number.set ((s.n : Int) + pid).toNat (m + 1)⟩ := by
      constructor
      · simp [List.length_set, hWF.1]
      · simp [List.length_set, hWF.2]
    exact waitSteps_no_indexError hWF1 ⟨_, hkneg⟩ s.n 0 (by show 0 + s.n ≤ s.n; omega)

theorem c10_negative_pid_aliases_witness :
    (∃ s', BakeryLock.unlock ⟨3, [false, false, false], [1, 2, 3]⟩ (-1) = some s' ∧
      s'.number[(((3 : Nat) : Int) + (-1)).toNat]? = some 0 ∧
      s'.choosing = [false, false, false] ∧
      ∀ j : Nat, j ≠ (((3 : Nat) : Int) + (-1)).toNat →
        s'.number[j]? = ([1, 2, 3] : List Nat)[j]?) ∧
    BakeryLock.unlock ⟨3, [false, false, false], [1, 2, 3]⟩ (-1) =
      BakeryLock.unlock ⟨3, [false, false, false], [1, 2, 3]⟩ (((3 : Nat) : Int) + (-1)) ∧
    BakeryLock.drawTicket ⟨3, [false, false, false], [1, 2, 3]⟩ (-1) =
      BakeryLock.drawTicket ⟨3, [false, false, false], [1, 2, 3]⟩ (((3 : Nat) : Int) + (-1)) ∧
    BakeryLock.lock ⟨3, [false, false, false], [1, 2, 3]⟩ (-1) ≠ .indexError :=
  c10_negative_pid_aliases ⟨3, [false, false, false], [1, 2, 3]⟩ (-1)
    (by decide) (by decide) (by decide)

/-- **C5.** `lock(pid)` terminates when the peers are quiescent: if
every other process `j` has `choosing[j] = false` and `number[j] = 0`
throughout, both busy-wait loops clear for every `j` — including
`j = pid` — and `lock(pid)` returns. -/
theorem c5_lock_terminates (s : BakeryLock) (pid : Int)
    (hWF : s.WF) (h0 : 0 ≤ pid) (h1 : pid < (s.n : Int))
    (hpeers : ∀ j : Nat, j < s.n → j ≠ pid.toNat →
      s.choosing[j]? = some false ∧ s.number[j]? = some 0) :
    ∃ s', s.lock pid = .acquired s' := by
  have hk : pyIdx s.n pid = some pid.toNat := pyIdx_pos h0 h1
  have hklt : pid.toNat < s.n := pyIdx_lt hk
  have hne : s.number ≠ [] := by
    intro h
    have := hWF.2
    rw [h] at this
    simp at this
    omega
  obtain ⟨m, hm⟩ := pymax_isSome hne
  have hdraw := drawTicket_eq hWF hk hm
  unfold BakeryLock.lock
  rw [hdraw]
  have hall : ∀ i, 0 ≤ i → i < 0 + s.n →
      ((s.choosing.set pid.toNat true).set pid.toNat false)[i]? = some false ∧
      BakeryLock.numberGuard ⟨s.n,
        (s.choosing.set pid.toNat true).set pid.toNat false,
        s.number.set pid.toNat (m + 1)⟩ pid i = some false := by
    intro i _ hi
    have hin : i < s.n := by omega
    by_cases hip : i = pid.toNat
    · rw [hip]
      constructor
      · exact List.getElem?_set_eq_of_lt false (by rw [List.length_set, hWF.1]; exact hklt)
      · have hnum : (s.number.set pid.toNat (m + 1))[pid.toNat]? = some (m + 1) :=
          List.getElem?_set_eq_of_lt (m + 1) (by rw [hWF.2]; exact hklt)
        have hg : pyIdx (s.number.set pid.toNat (m + 1)).length pid = some pid.toNat := by
          rw [List.length_set, hWF.2]
          exact hk
        have hg2 : pyGet (s.number.set pid.toNat (m + 1)) pid = some (m + 1) := by
          rw [pyGet_eq hg]
          exact hnum
        have hguard := @numberGuard_eq
          ⟨s.n, (s.choosing.set pid.toNat true).set pid.toNat false,
            s.number.set pid.toNat (m + 1)⟩
          pid pid.toNat (m + 1) (m + 1) hnum hg2
        rw [hguard, show ((pid.toNat : Nat) : Int) = pid from Int.toNat_of_nonneg h0,
          waitBlocked_self]
    · constructor
      · rw [List.getElem?_set_ne (fun h => hip h.symm),
          List.getElem?_set_ne (fun h => hip h.symm)]
        exact (hpeers i hin hip).1
      · have hzero : (s.number.set pid.toNat (m + 1))[i]? = some 0 := by
          rw [List.getElem?_set_ne (fun h => hip h.symm)]
          exact (hpeers i hin hip).2
        exact numberGuard_zero hzero
  exact ⟨_, @waitSteps_acquired_of
    ⟨s.n, (s.choosing.set pid.toNat true).set pid.toNat false,
      s.number.set pid.toNat (m + 1)⟩ pid s.n 0 hall⟩

theorem c5_lock_terminates_witness :
    ∃ s', BakeryLock.lock (BakeryLock.init 2) 0 = .acquired s' :=
  c5_lock_terminates (BakeryLock.init 2) 0 (by decide) (by decide) (by decide)
    (by decide)

/-! ## Preservation of the invariant, one lemma per step kind -/

theorem scanOk_of_eq {n : Nat} {s t : BState n} {i j : Fin n}
    (hpc : t.pc j = s.pc j) (hni : t.number i = s.number i)
    (h : scanOk s i j) : scanOk t i j := by
  intro k m hh
  rw [hpc] at hh
  rw [hni]
  exact h k m hh

theorem beats_of_eq {n : Nat} {s t : BState n} {i j : Fin n}
    (hpc : t.pc j = s.pc j) (hni : t.number i = s.number i)
    (hnj : t.number j = s.number j) (hb : beats s i j) : beats t i j := by
  constructor
  · exact scanOk_of_eq hpc hni hb.1
  · intro ht
    rw [hpc] at ht
    rw [hni, hnj]
    exact hb.2 ht

theorem inv_startLock {n : Nat} {s t : BState n} (H : BInv n s) (p : Fin n)
    (hp : s.pc p = PC.idle)
    (hc : t.choosing = Function.update s.choosing p true)
    (hn : t.number = s.number)
    (hpc : t.pc = Function.update s.pc p (PC.scan 0 0)) :
    BInv n t := by
  constructor
  · intro i
    rw [hc, hpc]
    by_cases hip : i = p
    · subst hip
      rw [Function.update_same, Function.update_same]
      simp [PC.isScan]
    · rw [Function.update_noteq hip, Function.update_noteq hip]
      exact H.flag i
  · intro i
    rw [hn, hpc]
    by_cases hip : i = p
    · subst hip
      rw [Function.update_same]
      simp [PC.isScan]
      exact (H.num0 i).mpr (Or.inl hp)
    · rw [Function.update_noteq hip]
      exact H.num0 i
  · intro i j hij hw
    rw [hpc] at hw
    by_cases hip : i = p
    · subst hip
      rw [Function.update_same] at hw
      simp [PC.inWait2] at hw
    · rw [Function.update_noteq hip] at hw
      intro k m h
      rw [hpc] at h
      rw [hn]
      by_cases hjp : j = p
      · subst hjp
        rw [Function.update_same] at h
        injection h with h1 h2
        left
        omega
      · rw [Function.update_noteq hjp] at h
        exact H.scanBound i j hij hw k m h
  · intro i j hij hpci ht
    rw [hpc] at hpci ht
    rw [hn]
    by_cases hip : i = p
    · subst hip
      rw [Function.update_same] at hpci
      exact PC.noConfusion hpci
    · rw [Function.update_noteq hip] at hpci
      by_cases hjp : j = p
      · subst hjp
        rw [Function.update_same] at ht
        simp [PC.ticketed] at ht
      · rw [Function.update_noteq hjp] at ht
        exact H.w2cGeq i j hij hpci ht
  · intro i j hij hdone
    rw [hpc] at hdone
    by_cases hip : i = p
    · subst hip
      rw [Function.update_same] at hdone
      simp [PC.donePast] at hdone
    · rw [Function.update_noteq hip] at hdone
      by_cases hjp : j = p
      · subst hjp
        constructor
        · intro k m h
          rw [hpc, Function.update_same] at h
          injection h with h1 h2
          rw [hn]
          left
          omega
        · intro htk
          rw [hpc, Function.update_same] at htk
          simp [PC.ticketed] at htk
      · refine beats_of_eq ?_ ?_ ?_ (H.passed i j hij hdone)
        · rw [hpc, Function.update_noteq hjp]
        · rw [hn]
        · rw [hn]

theorem nextPeer_not_scan (n j : Nat) : ¬ (nextPeer n j).isScan := by
  unfold nextPeer
  split <;> simp [PC.isScan]

theorem nextPeer_ne_clear (n j : Nat) : nextPeer n j ≠ PC.clear := by
  unfold nextPeer
  split <;> simp

theorem nextPeer_ne_idle (n j : Nat) : nextPeer n j ≠ PC.idle := by
  unfold nextPeer
  split <;> simp

theorem nextPeer_ticketed (n j : Nat) : (nextPeer n j).ticketed := by
  unfold nextPeer
  split <;> trivial

theorem nextPeer_not_inWait2 (n j k : Nat) : ¬ (nextPeer n j).inWait2 k := by
  unfold nextPeer
  split <;> simp [PC.inWait2]

theorem nextPeer_ne_w2c (n j k : Nat) : nextPeer n j ≠ PC.w2c k := by
  unfold nextPeer
  split <;> simp

theorem nextPeer_not_scan_eq (n j k m : Nat) : nextPeer n j ≠ PC.scan k m := by
  unfold nextPeer
  split <;> simp

theorem donePast_nextPeer {n j k : Nat} (hk : k < n)
    (h : (nextPeer n j).donePast k) : k ≤ j := by
  unfold nextPeer at h
  split at h
  · simp [PC.donePast] at h
    omega
  · omega

theorem ticketed_not_idle_scan {p : PC} (h : p.ticketed) :
    ¬ (p = PC.idle ∨ p.isScan) := by
  cases p <;> simp [PC.ticketed, PC.isScan] at h ⊢

theorem inv_scanRead {n : Nat} {s t : BState n} (H : BInv n s) (p : Fin n)
    (k0 m0 : Nat) (hk : k0 < n) (hp : s.pc p = PC.scan k0 m0)
    (hc : t.choosing = s.choosing)
    (hn : t.number = s.number)
    (hpc : t.pc = Function.update s.pc p
      (PC.scan (k0 + 1) (max m0 (s.number ⟨k0, hk⟩)))) :
    BInv n t := by
  have upgrade : ∀ i : Fin n, i ≠ p → (k0 ≤ i.val ∨ s.number i ≤ m0) →
      k0 + 1 ≤ i.val ∨ s.number i ≤ max m0 (s.number ⟨k0, hk⟩) := by
    intro i _ hold
    rcases hold with hle | hle
    · by_cases hk0 : k0 = i.val
      · right
        have hfin : (⟨k0, hk⟩ : Fin n) = i := Fin.ext hk0
        rw [hfin]
        exact le_max_right _ _
      · left
        omega
    · right
      exact le_trans hle (le_max_left _ _)
  constructor
  · intro i
    rw [hc, hpc]
    by_cases hip : i = p
    · subst hip
      rw [Function.update_same]
      simp [PC.isScan]
      exact (H.flag i).mpr (Or.inl (by rw [hp]; trivial))
    · rw [Function.update_noteq hip]
      exact H.flag i
  · intro i
    rw [hn, hpc]
    by_cases hip : i = p
    · subst hip
      rw [Function.update_same]
      simp [PC.isScan]
      exact (H.num0 i).mpr (Or.inr (by rw [hp]; trivial))
    · rw [Function.update_noteq hip]
      exact H.num0 i
  · intro i j hij hw
    rw [hpc] at hw
    by_cases hip : i = p
    · subst hip
      rw [Function.update_same] at hw
      simp [PC.inWait2] at hw
    · rw [Function.update_noteq hip] at hw
      intro k m h
      rw [hpc] at h
      rw [hn]
      by_cases hjp : j = p
      · subst hjp
        rw [Function.update_same] at h
        injection h with h1 h2
        subst h1 h2
        exact upgrade i hip (H.scanBound i j hij hw k0 m0 hp)
      · rw [Function.update_noteq hjp] at h
        exact H.scanBound i j hij hw k m h
  · intro i j hij hpci ht
    rw [hpc] at hpci ht
    rw [hn]
    by_cases hip : i = p
    · subst hip
      rw [Function.update_same] at hpci
      exact PC.noConfusion hpci
    · rw [Function.update_noteq hip] at hpci
      by_cases hjp : j = p
      · subst hjp
        rw [Function.update_same] at ht
        simp [PC.ticketed] at ht
      · rw [Function.update_noteq hjp] at ht
        exact H.w2cGeq i j hij hpci ht
  · intro i j hij hdone
    rw [hpc] at hdone
    by_cases hip : i = p
    · subst hip
      rw [Function.update_same] at hdone
      simp [PC.donePast] at hdone
    · rw [Function.update_noteq hip] at hdone
      by_cases hjp : j = p
      · subst hjp
        constructor
        · intro k m h
          rw [hpc, Function.update_same] at h
          injection h with h1 h2
          subst h1 h2
          rw [hn]
          exact upgrade i hip ((H.passed i j hij hdone).1 k0 m0 hp)
        · intro htk
          rw [hpc, Function.update_same] at htk
          simp [PC.ticketed] at htk
      · refine beats_of_eq ?_ ?_ ?_ (H.passed i j hij hdone)
        · rw [hpc, Function.update_noteq hjp]
        · rw [hn]
        · rw [hn]

theorem inv_writeTicket {n : Nat} {s t : BState n} (H : BInv n s) (p : Fin n)
    (m0 : Nat) (hp : s.pc p = PC.scan n m0)
    (hc : t.choosing = s.choosing)
    (hn : t.number = Function.update s.number p (m0 + 1))
    (hpc : t.pc = Function.update s.pc p PC.clear) :
    BInv n t := by
  have hscan : ∀ i : Fin n, i ≠ p → (n ≤ i.val ∨ s.number i ≤ m0) →
      s.number i ≤ m0 := by
    intro i _ h
    rcases h with h | h
    · exact absurd i.isLt (by omega)
    · exact h
  constructor
  · intro i
    rw [hc, hpc]
    by_cases hip : i = p
    · subst hip
      rw [Function.update_same]
      simp [PC.isScan]
      exact (H.flag i).mpr (Or.inl (by rw [hp]; trivial))
    · rw [Function.update_noteq hip]
      exact H.flag i
  · intro i
    rw [hn, hpc]
    by_cases hip : i = p
    · subst hip
      rw [Function.update_same, Function.update_same]
      simp [PC.isScan]
    · rw [Function.update_noteq hip, Function.update_noteq hip]
      exact H.num0 i
  · intro i j hij hw
    rw [hpc] at hw
    by_cases hip : i = p
    · subst hip
      rw [Function.update_same] at hw
      simp [PC.inWait2] at hw
    · rw [Function.update_noteq hip] at hw
      intro k m h
      rw [hpc] at h
      rw [hn, Function.update_noteq hip]
      by_cases hjp : j = p
      · subst hjp
        rw [Function.update_same] at h
        exact PC.noConfusion h
      · rw [Function.update_noteq hjp] at h
        exact H.scanBound i j hij hw k m h
  · intro i j hij hpci ht
    rw [hpc] at hpci ht
    rw [hn]
    by_cases hip : i = p
    · subst hip
      rw [Function.update_same] at hpci
      exact PC.noConfusion hpci
    · rw [Function.update_noteq hip] at hpci
      rw [Function.update_noteq hip]
      by_cases hjp : j = p
      · subst hjp
        rw [Function.update_same]
        have hb := hscan i hip
          (H.scanBound i j hij (Or.inr (Or.inr hpci)) n m0 hp)
        omega
      · rw [Function.update_noteq hjp] at ht ⊢
        exact H.w2cGeq i j hij hpci ht
  · intro i j hij hdone
    rw [hpc] at hdone
    by_cases hip : i = p
    · subst hip
      rw [Function.update_same] at hdone
      simp [PC.donePast] at hdone
    · rw [Function.update_noteq hip] at hdone
      by_cases hjp : j = p
      · subst hjp
        constructor
        · intro k m h
          rw [hpc, Function.update_same] at h
          exact PC.noConfusion h
        · intro _
          rw [hn, Function.update_noteq hip, Function.update_same]
          have hb := hscan i hip ((H.passed i j hij hdone).1 n m0 hp)
          left
          omega
      · refine beats_of_eq ?_ ?_ ?_ (H.passed i j hij hdone)
        · rw [hpc, Function.update_noteq hjp]
        · rw [hn, Function.update_noteq hip]
        · rw [hn, Function.update_noteq hjp]

theorem inv_clearFlag {n : Nat} {s t : BState n} (H : BInv n s) (p : Fin n)
    (hp : s.pc p = PC.clear)
    (hc : t.choosing = Function.update s.choosing p false)
    (hn : t.number = s.number)
    (hpc : t.pc = Function.update s.pc p (PC.wait1 0)) :
    BInv n t := by
  constructor
  · intro i
    rw [hc, hpc]
    by_cases hip : i = p
    · subst hip
      rw [Function.update_same, Function.update_same]
      simp [PC.isScan]
    · rw [Function.update_noteq hip, Function.update_noteq hip]
      exact H.flag i
  · intro i
    rw [hn, hpc]
    by_cases hip : i = p
    · subst hip
      rw [Function.update_same]
      simp [PC.isScan]
      intro h
      have h2 := (H.num0 i).mp h
      rw [hp] at h2
      simp [PC.isScan] at h2
    · rw [Function.update_noteq hip]
      exact H.num0 i
  · intro i j hij hw
    rw [hpc] at hw
    by_cases hip : i = p
    · subst hip
      rw [Function.update_same] at hw
      simp [PC.inWait2] at hw
    · rw [Function.update_noteq hip] at hw
      intro k m h
      rw [hpc] at h
      rw [hn]
      by_cases hjp : j = p
      · subst hjp
        rw [Function.update_same] at h
        exact PC.noConfusion h
      · rw [Function.update_noteq hjp] at h
        exact H.scanBound i j hij hw k m h
  · intro i j hij hpci ht
    rw [hpc] at hpci ht
    rw [hn]
    by_cases hip : i = p
    · subst hip
      rw [Function.update_same] at hpci
      exact PC.noConfusion hpci
    · rw [Function.update_noteq hip] at hpci
      by_cases hjp : j = p
      · subst hjp
        exact H.w2cGeq i j hij hpci (by rw [hp]; trivial)
      · rw [Function.update_noteq hjp] at ht
        exact H.w2cGeq i j hij hpci ht
  · intro i j hij hdone
    rw [hpc] at hdone
    by_cases hip : i = p
    · subst hip
      rw [Function.update_same] at hdone
      simp [PC.donePast] at hdone
    · rw [Function.update_noteq hip] at hdone
      by_cases hjp : j = p
      · subst hjp
        constructor
        · intro k m h
          rw [hpc, Function.update_same] at h
          exact PC.noConfusion h
        · intro _
          rw [hn]
          exact (H.passed i j hij hdone).2 (by rw [hp]; trivial)
      · refine beats_of_eq ?_ ?_ ?_ (H.passed i j hij hdone)
        · rw [hpc, Function.update_noteq hjp]
        · rw [hn]
        · rw [hn]

theorem inv_passChoosing {n : Nat} {s t : BState n} (H : BInv n s) (p : Fin n)
    (j0 : Nat) (hj : j0 < n) (hp : s.pc p = PC.wait1 j0)
    (hzero : s.choosing ⟨j0, hj⟩ = false)
    (hc : t.choosing = s.choosing)
    (hn : t.number = s.number)
    (hpc : t.pc = Function.update s.pc p (PC.w2a j0)) :
    BInv n t := by
  constructor
  · intro i
    rw [hc, hpc]
    by_cases hip : i = p
    · subst hip
      rw [Function.update_same]
      simp [PC.isScan]
      rcases Bool.eq_false_or_eq_true (s.choosing i) with hb | hb
      · have h2 := (H.flag i).mp hb
        rw [hp] at h2
        simp [PC.isScan] at h2
      · exact hb
    · rw [Function.update_noteq hip]
      exact H.flag i
  · intro i
    rw [hn, hpc]
    by_cases hip : i = p
    · subst hip
      rw [Function.update_same]
      simp [PC.isScan]
      intro h
      have h2 := (H.num0 i).mp h
      rw [hp] at h2
      simp [PC.isScan] at h2
    · rw [Function.update_noteq hip]
      exact H.num0 i
  · intro i j hij hw
    rw [hpc] at hw
    by_cases hip : i = p
    · subst hip
      rw [Function.update_same] at hw
      simp [PC.inWait2] at hw
      intro k m h
      rw [hpc, Function.update_noteq (Ne.symm hij)] at h
      have hfin : (⟨j0, hj⟩ : Fin n) = j := by
        apply Fin.ext
        simp
        omega
      have hch : s.choosing j = true := (H.flag j).mpr (Or.inl (by rw [h]; trivial))
      rw [hfin] at hzero
      rw [hzero] at hch
      exact Bool.noConfusion hch
    · rw [Function.update_noteq hip] at hw
      intro k m h
      rw [hpc] at h
      rw [hn]
      by_cases hjp : j = p
      · subst hjp
        rw [Function.update_same] at h
        exact PC.noConfusion h
      · rw [Function.update_noteq hjp] at h
        exact H.scanBound i j hij hw k m h
  · intro i j hij hpci ht
    rw [hpc] at hpci ht
    rw [hn]
    by_cases hip : i = p
    · subst hip
      rw [Function.update_same] at hpci
      exact PC.noConfusion hpci
    · rw [Function.update_noteq hip] at hpci
      by_cases hjp : j = p
      · subst hjp
        exact H.w2cGeq i j hij hpci (by rw [hp]; trivial)
      · rw [Function.update_noteq hjp] at ht
        exact H.w2cGeq i j hij hpci ht
  · intro i j hij hdone
    rw [hpc] at hdone
    by_cases hip : i = p
    · subst hip
      rw [Function.update_same] at hdone
      simp [PC.donePast] at hdone
      refine beats_of_eq ?_ ?_ ?_
        (H.passed i j hij (by rw [hp]; simpa [PC.donePast] using hdone))
      · rw [hpc, Function.update_noteq (Ne.symm hij)]
      · rw [hn]
      · rw [hn]
    · rw [Function.update_noteq hip] at hdone
      by_cases hjp : j = p
      · subst hjp
        have hb := H.passed i j hij hdone
        constructor
        · intro k m h
          rw [hpc, Function.update_same] at h
          exact PC.noConfusion h
        · intro _
          rw [hn]
          exact hb.2 (by rw [hp]; trivial)
      · refine beats_of_eq ?_ ?_ ?_ (H.passed i j hij hdone)
        · rw [hpc, Function.update_noteq hjp]
        · rw [hn]
        · rw [hn]

theorem inv_readZero {n : Nat} {s t : BState n} (H : BInv n s) (p : Fin n)
    (j0 : Nat) (hj : j0 < n) (hp : s.pc p = PC.w2a j0)
    (hz : s.number ⟨j0, hj⟩ = 0)
    (hc : t.choosing = s.choosing)
    (hn : t.number = s.number)
    (hpc : t.pc = Function.update s.pc p (nextPeer n j0)) :
    BInv n t := by
  constructor
  · intro i
    rw [hc, hpc]
    by_cases hip : i = p
    · subst hip
      rw [Function.update_same]
      simp [nextPeer_not_scan, nextPeer_ne_clear]
      rcases Bool.eq_false_or_eq_true (s.choosing i) with hb | hb
      · have h2 := (H.flag i).mp hb
        rw [hp] at h2
        simp [PC.isScan] at h2
      · exact hb
    · rw [Function.update_noteq hip]
      exact H.flag i
  · intro i
    rw [hn, hpc]
    by_cases hip : i = p
    · subst hip
      rw [Function.update_same]
      simp [nextPeer_not_scan, nextPeer_ne_idle]
      intro h
      have h2 := (H.num0 i).mp h
      rw [hp] at h2
      simp [PC.isScan] at h2
    · rw [Function.update_noteq hip]
      exact H.num0 i
  · intro i j hij hw
    rw [hpc] at hw
    by_cases hip : i = p
    · subst hip
      rw [Function.update_same] at hw
      exact absurd hw (nextPeer_not_inWait2 n j0 j.val)
    · rw [Function.update_noteq hip] at hw
      intro k m h
      rw [hpc] at h
      rw [hn]
      by_cases hjp : j = p
      · subst hjp
        rw [Function.update_same] at h
        exact absurd h (nextPeer_not_scan_eq n j0 k m)
      · rw [Function.update_noteq hjp] at h
        exact H.scanBound i j hij hw k m h
  · intro i j hij hpci ht
    rw [hpc] at hpci ht
    rw [hn]
    by_cases hip : i = p
    · subst hip
      rw [Function.update_same] at hpci
      exact absurd hpci (nextPeer_ne_w2c n j0 j.val)
    · rw [Function.update_noteq hip] at hpci
      by_cases hjp : j = p
      · subst hjp
        exact H.w2cGeq i j hij hpci (by rw [hp]; trivial)
      · rw [Function.update_noteq hjp] at ht
        exact H.w2cGeq i j hij hpci ht
  · intro i j hij hdone
    rw [hpc] at hdone
    by_cases hip : i = p
    · subst hip
      rw [Function.update_same] at hdone
      have hle : j.val ≤ j0 := donePast_nextPeer j.isLt hdone
      by_cases hjj : j.val = j0
      · -- the newly passed peer: `number[j]` read `0`
        have hfin : (⟨j0, hj⟩ : Fin n) = j := by
          apply Fin.ext
          simp
          omega
        rw [hfin] at hz
        constructor
        · intro k m h
          rw [hpc, Function.update_noteq (Ne.symm hij)] at h
          rw [hn]
          refine H.scanBound i j hij ?_ k m h
          rw [hp]
          exact Or.inl (by rw [hjj])
        · intro ht
          rw [hpc, Function.update_noteq (Ne.symm hij)] at ht
          exact absurd ((H.num0 j).mp hz) (ticketed_not_idle_scan ht)
      · -- a peer passed earlier
        refine beats_of_eq ?_ ?_ ?_
          (H.passed i j hij (by rw [hp]; simp [PC.donePast]; omega))
        · rw [hpc, Function.update_noteq (Ne.symm hij)]
        · rw [hn]
        · rw [hn]
    · rw [Function.update_noteq hip] at hdone
      by_cases hjp : j = p
      · subst hjp
        have hb := H.passed i j hij hdone
        constructor
        · intro k m h
          rw [hpc, Function.update_same] at h
          exact absurd h (nextPeer_not_scan_eq n j0 k m)
        · intro _
          rw [hn]
          exact hb.2 (by rw [hp]; trivial)
      · refine beats_of_eq ?_ ?_ ?_ (H.passed i j hij hdone)
        · rw [hpc, Function.update_noteq hjp]
        · rw [hn]
        · rw [hn]

theorem inv_wait2_shuffle {n : Nat} {s t : BState n} (H : BInv n s) (p : Fin n)
    (j0 : Nat) (q q' : PC)
    (hq : q = PC.w2a j0 ∨ q = PC.w2b j0 ∨ q = PC.w2c j0)
    (hq' : q' = PC.w2a j0 ∨ q' = PC.w2b j0)
    (hp : s.pc p = q)
    (hc : t.choosing = s.choosing) (hn : t.number = s.number)
    (hpc : t.pc = Function.update s.pc p q') :
    BInv n t := by
  have hqt : q.ticketed := by rcases hq with rfl | rfl | rfl <;> trivial
  have hq't : q'.ticketed := by rcases hq' with rfl | rfl <;> trivial
  have hqflag : ¬ (q.isScan ∨ q = PC.clear) := by
    rcases hq with rfl | rfl | rfl <;> simp [PC.isScan]
  have hq'flag : ¬ (q'.isScan ∨ q' = PC.clear) := by
    rcases hq' with rfl | rfl <;> simp [PC.isScan]
  have hqnum : ¬ (q = PC.idle ∨ q.isScan) := by
    rcases hq with rfl | rfl | rfl <;> simp [PC.isScan]
  have hq'num : ¬ (q' = PC.idle ∨ q'.isScan) := by
    rcases hq' with rfl | rfl <;> simp [PC.isScan]
  have hq'scan : ∀ k m, q' ≠ PC.scan k m := by
    rcases hq' with rfl | rfl <;> simp
  have hq'w2c : ∀ k, q' ≠ PC.w2c k := by
    rcases hq' with rfl | rfl <;> simp
  have hq'wait : ∀ k, q'.inWait2 k → k = j0 := by
    rcases hq' with rfl | rfl <;> (intro k hk; simp [PC.inWait2] at hk; omega)
  have hqwaitj0 : q.inWait2 j0 := hq
  have hqdone : ∀ k, q.donePast k ↔ k < j0 := by
    rcases hq with rfl | rfl | rfl <;> (intro k; simp [PC.donePast])
  have hq'done : ∀ k, q'.donePast k ↔ k < j0 := by
    rcases hq' with rfl | rfl <;> (intro k; simp [PC.donePast])
  constructor
  · intro i
    rw [hc, hpc]
    by_cases hip : i = p
    · subst hip
      rw [Function.update_same]
      constructor
      · intro hb
        exact absurd ((H.flag i).mp hb) (by rw [hp]; exact hqflag)
      · intro hcon
        exact absurd hcon hq'flag
    · rw [Function.update_noteq hip]
      exact H.flag i
  · intro i
    rw [hn, hpc]
    by_cases hip : i = p
    · subst hip
      rw [Function.update_same]
      constructor
      · intro hb
        exact absurd ((H.num0 i).mp hb) (by rw [hp]; exact hqnum)
      · intro hcon
        exact absurd hcon hq'num
    · rw [Function.update_noteq hip]
      exact H.num0 i
  · intro i j hij hw
    rw [hpc] at hw
    by_cases hip : i = p
    · subst hip
      rw [Function.update_same] at hw
      have hj0 : j.val = j0 := hq'wait j.val hw
      intro k m h
      rw [hpc, Function.update_noteq (Ne.symm hij)] at h
      rw [hn]
      refine H.scanBound i j hij ?_ k m h
      rw [hp, hj0]
      exact hqwaitj0
    · rw [Function.update_noteq hip] at hw
      intro k m h
      rw [hpc] at h
      rw [hn]
      by_cases hjp : j = p
      · subst hjp
        rw [Function.update_same] at h
        exact absurd h (hq'scan k m)
      · rw [Function.update_noteq hjp] at h
        exact H.scanBound i j hij hw k m h
  · intro i j hij hpci ht
    rw [hpc] at hpci ht
    rw [hn]
    by_cases hip : i = p
    · subst hip
      rw [Function.update_same] at hpci
      exact absurd hpci (hq'w2c j.val)
    · rw [Function.update_noteq hip] at hpci
      by_cases hjp : j = p
      · subst hjp
        exact H.w2cGeq i j hij hpci (by rw [hp]; exact hqt)
      · rw [Function.update_noteq hjp] at ht
        exact H.w2cGeq i j hij hpci ht
  · intro i j hij hdone
    rw [hpc] at hdone
    by_cases hip : i = p
    · subst hip
      rw [Function.update_same] at hdone
      rw [hq'done] at hdone
      refine beats_of_eq ?_ ?_ ?_
        (H.passed i j hij (by rw [hp, hqdone]; exact hdone))
      · rw [hpc, Function.update_noteq (Ne.symm hij)]
      · rw [hn]
      · rw [hn]
    · rw [Function.update_noteq hip] at hdone
      by_cases hjp : j = p
      · subst hjp
        have hb := H.passed i j hij hdone
        constructor
        · intro k m h
          rw [hpc, Function.update_same] at h
          exact absurd h (hq'scan k m)
        · intro _
          rw [hn]
          exact hb.2 (by rw [hp]; exact hqt)
      · refine beats_of_eq ?_ ?_ ?_ (H.passed i j hij hdone)
        · rw [hpc, Function.update_noteq hjp]
        · rw [hn]
        · rw [hn]

theorem inv_readGeq {n : Nat} {s t : BState n} (H : BInv n s) (p : Fin n)
    (j0 : Nat) (hj : j0 < n) (hp : s.pc p = PC.w2b j0)
    (hge : ¬ s.number ⟨j0, hj⟩ < s.number p)
    (hc : t.choosing = s.choosing) (hn : t.number = s.number)
    (hpc : t.pc = Function.update s.pc p (PC.w2c j0)) :
    BInv n t := by
  constructor
  · intro i
    rw [hc, hpc]
    by_cases hip : i = p
    · subst hip
      rw [Function.update_same]
      constructor
      · intro hb
        have h2 := (H.flag i).mp hb
        rw [hp] at h2
        simp [PC.isScan] at h2
      · intro hcon
        simp [PC.isScan] at hcon
    · rw [Function.update_noteq hip]
      exact H.flag i
  · intro i
    rw [hn, hpc]
    by_cases hip : i = p
    · subst hip
      rw [Function.update_same]
      constructor
      · intro hb
        have h2 := (H.num0 i).mp hb
        rw [hp] at h2
        simp [PC.isScan] at h2
      · intro hcon
        simp [PC.isScan] at hcon
    · rw [Function.update_noteq hip]
      exact H.num0 i
  · intro i j hij hw
    rw [hpc] at hw
    by_cases hip : i = p
    · subst hip
      rw [Function.update_same] at hw
      have hj0 : j.val = j0 := by
        simp [PC.inWait2] at hw
        omega
      intro k m h
      rw [hpc, Function.update_noteq (Ne.symm hij)] at h
      rw [hn]
      refine H.scanBound i j hij ?_ k m h
      rw [hp, hj0]
      exact Or.inr (Or.inl rfl)
    · rw [Function.update_noteq hip] at hw
      intro k m h
      rw [hpc] at h
      rw [hn]
      by_cases hjp : j = p
      · subst hjp
        rw [Function.update_same] at h
        exact PC.noConfusion h
      · rw [Function.update_noteq hjp] at h
        exact H.scanBound i j hij hw k m h
  · intro i j hij hpci ht
    rw [hpc] at hpci ht
    rw [hn]
    by_cases hip : i = p
    · subst hip
      rw [Function.update_same] at hpci
      injection hpci with hj0
      have hfin : (⟨j0, hj⟩ : Fin n) = j := by
        apply Fin.ext
        simp
        omega
      rw [hfin] at hge
      omega
    · rw [Function.update_noteq hip] at hpci
      by_cases hjp : j = p
      · subst hjp
        exact H.w2cGeq i j hij hpci (by rw [hp]; trivial)
      · rw [Function.update_noteq hjp] at ht
        exact H.w2cGeq i j hij hpci ht
  · intro i j hij hdone
    rw [hpc] at hdone
    by_cases hip : i = p
    · subst hip
      rw [Function.update_same] at hdone
      simp [PC.donePast] at hdone
      refine beats_of_eq ?_ ?_ ?_
        (H.passed i j hij (by rw [hp]; simpa [PC.donePast] using hdone))
      · rw [hpc, Function.update_noteq (Ne.symm hij)]
      · rw [hn]
      · rw [hn]
    · rw [Function.update_noteq hip] at hdone
      by_cases hjp : j = p
      · subst hjp
        have hb := H.passed i j hij hdone
        constructor
        · intro k m h
          rw [hpc, Function.update_same] at h
          exact PC.noConfusion h
        · intro _
          rw [hn]
          exact hb.2 (by rw [hp]; trivial)
      · refine beats_of_eq ?_ ?_ ?_ (H.passed i j hij hdone)
        · rw [hpc, Function.update_noteq hjp]
        · rw [hn]
        · rw [hn]

theorem inv_readPass {n : Nat} {s t : BState n} (H : BInv n s) (p : Fin n)
    (j0 : Nat) (hj : j0 < n) (hp : s.pc p = PC.w2c j0)
    (hp2 : ¬ (s.number ⟨j0, hj⟩ = s.number p ∧ j0 < p.val))
    (hc : t.choosing = s.choosing)
    (hn : t.number = s.number)
    (hpc : t.pc = Function.update s.pc p (nextPeer n j0)) :
    BInv n t := by
  constructor
  · intro i
    rw [hc, hpc]
    by_cases hip : i = p
    · subst hip
      rw [Function.update_same]
      simp [nextPeer_not_scan, nextPeer_ne_clear]
      rcases Bool.eq_false_or_eq_true (s.choosing i) with hb | hb
      · have h2 := (H.flag i).mp hb
        rw [hp] at h2
        simp [PC.isScan] at h2
      · exact hb
    · rw [Function.update_noteq hip]
      exact H.flag i
  · intro i
    rw [hn, hpc]
    by_cases hip : i = p
    · subst hip
      rw [Function.update_same]
      simp [nextPeer_not_scan, nextPeer_ne_idle]
      intro h
      have h2 := (H.num0 i).mp h
      rw [hp] at h2
      simp [PC.isScan] at h2
    · rw [Function.update_noteq hip]
      exact H.num0 i
  · intro i j hij hw
    rw [hpc] at hw
    by_cases hip : i = p
    · subst hip
      rw [Function.update_same] at hw
      exact absurd hw (nextPeer_not_inWait2 n j0 j.val)
    · rw [Function.update_noteq hip] at hw
      intro k m h
      rw [hpc] at h
      rw [hn]
      by_cases hjp : j = p
      · subst hjp
        rw [Function.update_same] at h
        exact absurd h (nextPeer_not_scan_eq n j0 k m)
      · rw [Function.update_noteq hjp] at h
        exact H.scanBound i j hij hw k m h
  · intro i j hij hpci ht
    rw [hpc] at hpci ht
    rw [hn]
    by_cases hip : i = p
    · subst hip
      rw [Function.update_same] at hpci
      exact absurd hpci (nextPeer_ne_w2c n j0 j.val)
    · rw [Function.update_noteq hip] at hpci
      by_cases hjp : j = p
      · subst hjp
        exact H.w2cGeq i j hij hpci (by rw [hp]; trivial)
      · rw [Function.update_noteq hjp] at ht
        exact H.w2cGeq i j hij hpci ht
  · intro i j hij hdone
    rw [hpc] at hdone
    by_cases hip : i = p
    · subst hip
      rw [Function.update_same] at hdone
      have hle : j.val ≤ j0 := donePast_nextPeer j.isLt hdone
      by_cases hjj : j.val = j0
      · -- the newly passed peer: the full guard evaluated to false
        have hfin : (⟨j0, hj⟩ : Fin n) = j := by
          apply Fin.ext
          simp
          omega
        rw [hfin] at hp2
        constructor
        · intro k m h
          rw [hpc, Function.update_noteq (Ne.symm hij)] at h
          rw [hn]
          refine H.scanBound i j hij ?_ k m h
          rw [hp]
          exact Or.inr (Or.inr (by rw [hjj]))
        · intro ht
          rw [hpc, Function.update_noteq (Ne.symm hij)] at ht
          have hgeq : s.number i ≤ s.number j := by
            refine H.w2cGeq i j hij ?_ ht
            rw [hp, hjj]
          have hne : i.val ≠ j.val := fun h => hij (Fin.ext h)
          rw [hn]
          omega
      · refine beats_of_eq ?_ ?_ ?_
          (H.passed i j hij (by rw [hp]; simp [PC.donePast]; omega))
        · rw [hpc, Function.update_noteq (Ne.symm hij)]
        · rw [hn]
        · rw [hn]
    · rw [Function.update_noteq hip] at hdone
      by_cases hjp : j = p
      · subst hjp
        have hb := H.passed i j hij hdone
        constructor
        · intro k m h
          rw [hpc, Function.update_same] at h
          exact absurd h (nextPeer_not_scan_eq n j0 k m)
        · intro _
          rw [hn]
          exact hb.2 (by rw [hp]; trivial)
      · refine beats_of_eq ?_ ?_ ?_ (H.passed i j hij hdone)
        · rw [hpc, Function.update_noteq hjp]
        · rw [hn]
        · rw [hn]

theorem inv_unlockStep {n : Nat} {s t : BState n} (H : BInv n s) (p : Fin n)
    (hp : s.pc p = PC.crit)
    (hc : t.choosing = s.choosing)
    (hn : t.number = Function.update s.number p 0)
    (hpc : t.pc = Function.update s.pc p PC.idle) :
    BInv n t := by
  constructor
  · intro i
    rw [hc, hpc]
    by_cases hip : i = p
    · subst hip
      rw [Function.update_same]
      simp [PC.isScan]
      rcases Bool.eq_false_or_eq_true (s.choosing i) with hb | hb
      · have h2 := (H.flag i).mp hb
        rw [hp] at h2
        simp [PC.isScan] at h2
      · exact hb
    · rw [Function.update_noteq hip]
      exact H.flag i
  · intro i
    rw [hn, hpc]
    by_cases hip : i = p
    · subst hip
      rw [Function.update_same, Function.update_same]
      simp
    · rw [Function.update_noteq hip, Function.update_noteq hip]
      exact H.num0 i
  · intro i j hij hw
    rw [hpc] at hw
    by_cases hip : i = p
    · subst hip
      rw [Function.update_same] at hw
      simp [PC.inWait2] at hw
    · rw [Function.update_noteq hip] at hw
      intro k m h
      rw [hpc] at h
      rw [hn, Function.update_noteq hip]
      by_cases hjp : j = p
      · subst hjp
        rw [Function.update_same] at h
        exact PC.noConfusion h
      · rw [Function.update_noteq hjp] at h
        exact H.scanBound i j hij hw k m h
  · intro i j hij hpci ht
    rw [hpc] at hpci ht
    rw [hn]
    by_cases hip : i = p
    · subst hip
      rw [Function.update_same] at hpci
      exact PC.noConfusion hpci
    · rw [Function.update_noteq hip] at hpci
      rw [Function.update_noteq hip]
      by_cases hjp : j = p
      · subst hjp
        rw [Function.update_same] at ht
        simp [PC.ticketed] at ht
      · rw [Function.update_noteq hjp] at ht ⊢
        exact H.w2cGeq i j hij hpci ht
  · intro i j hij hdone
    rw [hpc] at hdone
    by_cases hip : i = p
    · subst hip
      rw [Function.update_same] at hdone
      simp [PC.donePast] at hdone
    · rw [Function.update_noteq hip] at hdone
      by_cases hjp : j = p
      · subst hjp
        constructor
        · intro k m h
          rw [hpc, Function.update_same] at h
          exact PC.noConfusion h
        · intro ht
          rw [hpc, Function.update_same] at ht
          simp [PC.ticketed] at ht
      · refine beats_of_eq ?_ ?_ ?_ (H.passed i j hij hdone)
        · rw [hpc, Function.update_noteq hjp]
        · rw [hn, Function.update_noteq hip]
        · rw [hn, Function.update_noteq hjp]

/-- The invariant holds initially. -/
theorem inv_init (n : Nat) : BInv n (initB n) := by
  constructor
  · intro i
    simp [initB, PC.isScan]
  · intro i
    simp [initB, PC.isScan]
  · intro i j _ hw
    simp [initB, PC.inWait2] at hw
  · intro i j _ hpci
    simp [initB] at hpci
  · intro i j _ hdone
    simp [initB, PC.donePast] at hdone

/-- The invariant is preserved by every step. -/
theorem inv_step {n : Nat} {s t : BState n} (H : BInv n s) (hst : Step n s t) :
    BInv n t := by
  cases hst with
  | startLock i h => exact inv_startLock H i h rfl rfl rfl
  | scanRead i k m hk h => exact inv_scanRead H i k m hk h rfl rfl rfl
  | writeTicket i m h => exact inv_writeTicket H i m h rfl rfl rfl
  | clearFlag i h => exact inv_clearFlag H i h rfl rfl rfl
  | passChoosing i j hj h hc => exact inv_passChoosing H i j hj h hc rfl rfl rfl
  | readZero i j hj h hz => exact inv_readZero H i j hj h hz rfl rfl rfl
  | readNonzero i j hj h hz =>
      exact inv_wait2_shuffle H i j (PC.w2a j) (PC.w2b j) (Or.inl rfl)
        (Or.inr rfl) h rfl rfl rfl
  | readLess i j hj h hlt =>
      exact inv_wait2_shuffle H i j (PC.w2b j) (PC.w2a j) (Or.inr (Or.inl rfl))
        (Or.inl rfl) h rfl rfl rfl
  | readGeq i j hj h hge => exact inv_readGeq H i j hj h hge rfl rfl rfl
  | readTie i j hj h heq hji =>
      exact inv_wait2_shuffle H i j (PC.w2c j) (PC.w2a j) (Or.inr (Or.inr rfl))
        (Or.inl rfl) h rfl rfl rfl
  | readPass i j hj h hp2 => exact inv_readPass H i j hj h hp2 rfl rfl rfl
  | unlockStep i h => exact inv_unlockStep H i h rfl rfl rfl

/-- Every reachable state satisfies the invariant. -/
theorem reach_inv {n : Nat} {s : BState n} (h : Reach n s) : BInv n s := by
  induction h with
  | init => exact inv_init n
  | next _ hst ih => exact inv_step ih hst

/-- **C1.** Mutual exclusion: in every state reachable by any
interleaving of the per-variable shared-memory accesses of `lock` and
`unlock` by `n` client processes, no two distinct processes are in
their critical sections (between the return of `lock(i)` and the call
of `unlock(i)`) at the same time. -/
theorem c1_mutual_exclusion (n : Nat) (s : BState n) (hs : Reach n s)
    (i j : Fin n) (hij : i ≠ j) :
    ¬ (s.pc i = PC.crit ∧ s.pc j = PC.crit) := by
  rintro ⟨hi, hj⟩
  have H := reach_inv hs
  have hbi := (H.passed i j hij (by rw [hi]; trivial)).2 (by rw [hj]; trivial)
  have hbj := (H.passed j i hij.symm (by rw [hj]; trivial)).2 (by rw [hi]; trivial)
  have hne : i.val ≠ j.val := fun h => hij (Fin.ext h)
  omega

theorem c1_mutual_exclusion_witness :
    ¬ ((initB 2).pc 0 = PC.crit ∧ (initB 2).pc 1 = PC.crit) :=
  c1_mutual_exclusion 2 (initB 2) Reach.init 0 1 (by decide)

/-- The critical section is attainable: the mutual-exclusion theorem is
not about an unreachable control state.  Process `0` of two runs
`lock(0)` to completion from the initial state. -/
theorem crit_reachable : ∃ s : BState 2, Reach 2 s ∧ s.pc 0 = PC.crit := by
  have r1 := Reach.next Reach.init (Step.startLock (initB 2) 0 (by decide))
  have r2 := Reach.next r1 (Step.scanRead _ 0 0 0 (by decide) (by decide))
  have r3 := Reach.next r2 (Step.scanRead _ 0 1 0 (by decide) (by decide))
  have r4 := Reach.next r3 (Step.writeTicket _ 0 0 (by decide))
  have r5 := Reach.next r4 (Step.clearFlag _ 0 (by decide))
  have r6 := Reach.next r5 (Step.passChoosing _ 0 0 (by decide) (by decide) (by decide))
  have r7 := Reach.next r6 (Step.readNonzero _ 0 0 (by decide) (by decide) (by decide))
  have r8 := Reach.next r7 (Step.readGeq _ 0 0 (by decide) (by decide) (by decide))
  have r9 := Reach.next r8 (Step.readPass _ 0 0 (by decide) (by decide) (by decide))
  have r10 := Reach.next r9 (Step.passChoosing _ 0 1 (by decide) (by decide) (by decide))
  have r11 := Reach.next r10 (Step.readZero _ 0 1 (by decide) (by decide) (by decide))
  exact ⟨_, r11, by decide⟩
